import Mathlib

/-!
Verification of the rule algebra and usage accumulator of `strava_gear/data.py`.

Modelling conventions (shallow embedding):
* Python `dict` becomes `Finmap` (Mathlib's finite map, a quotient of
  association lists by permutation), so Lean equality of maps coincides with
  Python's order-insensitive `dict` equality, and it is decidable.
* The string-like identifier types (`ComponentType`, `ComponentId`, `BikeId`,
  `HashTag`, ...) become `String`.  A Python value of type `ComponentId` is
  falsy exactly when it is the empty string, so truthiness (`if d`) becomes
  `d ≠ ""`.
* `pd.Timestamp` is only ever compared, so it becomes `Int` (any linearly
  ordered type would do).
* Python `float` distances and times become exact rationals `ℚ`.
* `Rule.__add__`'s `NotImplemented` escape (which surfaces as a `TypeError`,
  the spec's `OrderingError`) becomes an `Option`-valued combine: `none` is
  the ordering error.
-/

set_option linter.unusedSectionVars false

namespace StravaGear

abbrev ComponentType := String
abbrev ComponentId := String
abbrev ComponentName := String
abbrev BikeId := String
abbrev BikeName := String
abbrev HashTag := String

/-- Python `dict` from `K` to `V`, as a finite map. -/
abbrev Dict (K V : Type) := Finmap (fun _ : K => V)

/-- Source `ComponentMap = Dict[ComponentType, ComponentId]`. -/
abbrev ComponentMap := Dict ComponentType ComponentId

/-- Source `Mapping = Dict[T, ComponentMap]`. -/
abbrev Mapping (K : Type) := Dict K ComponentMap

/-! ### List-level groundwork for the dict comprehensions

The three dict comprehensions of the source (value-filtering, value-mapping
and key-united merging) are first defined on association lists and then
lifted to `Finmap`.
-/

section Lists

variable {K V W : Type} [DecidableEq K]

theorem dlookup_append_or (a : K) (l₁ l₂ : List (Σ _ : K, V)) :
    (l₁ ++ l₂).dlookup a = (l₁.dlookup a).or (l₂.dlookup a) := by
  induction l₁ with
  | nil => simp
  | cons x l ih =>
    by_cases h : x.1 = a
    · rcases x with ⟨a', b⟩
      subst h
      simp [List.dlookup_cons_eq]
    · rw [List.cons_append, List.dlookup_cons_ne _ _ (Ne.symm h),
        List.dlookup_cons_ne _ _ (Ne.symm h), ih]

theorem dlookup_map_val (h : K → V → W) (a : K) (l : List (Σ _ : K, V)) :
    ((l.map fun x => (⟨x.1, h x.1 x.2⟩ : Σ _ : K, W)).dlookup a)
      = (l.dlookup a).map (h a) := by
  induction l with
  | nil => simp
  | cons x l ih =>
    by_cases hx : x.1 = a
    · rcases x with ⟨a', b⟩
      subst hx
      simp [List.dlookup_cons_eq]
    · rw [List.map_cons,
        List.dlookup_cons_ne _ (⟨x.1, h x.1 x.2⟩ : Σ _ : K, W) (Ne.symm hx),
        List.dlookup_cons_ne _ x (Ne.symm hx), ih]

theorem dlookup_filter_kv (p : K → V → Bool) (a : K) {l : List (Σ _ : K, V)}
    (nd : l.NodupKeys) :
    ((l.filter fun x => p x.1 x.2).dlookup a)
      = (l.dlookup a).bind (fun v => if p a v then some v else none) := by
  induction l with
  | nil => simp
  | cons x l ih =>
    rcases x with ⟨a', b⟩
    have ndl : l.NodupKeys := List.nodupKeys_of_nodupKeys_cons nd
    by_cases hx : a' = a
    · subst hx
      have hnotmem : a' ∉ l.keys := List.not_mem_keys_of_nodupKeys_cons nd
      have hnone : l.dlookup a' = none := List.dlookup_eq_none.2 hnotmem
      by_cases hp : p a' b
      · simp [List.filter_cons, hp, List.dlookup_cons_eq]
      · simp only [List.filter_cons, hp, Bool.false_eq_true, if_false,
          List.dlookup_cons_eq, ih ndl, hnone, Option.bind_some, Option.bind_none]
        simp [hp]
    · by_cases hp : p a' b
      · simp only [List.filter_cons, hp, if_true]
        rw [List.dlookup_cons_ne _ _ (Ne.symm hx), List.dlookup_cons_ne _ _ (Ne.symm hx),
          ih ndl]
      · simp only [List.filter_cons, hp, Bool.false_eq_true, if_false]
        rw [List.dlookup_cons_ne _ _ (Ne.symm hx), ih ndl]

theorem keys_map_val (h : K → V → W) (l : List (Σ _ : K, V)) :
    (l.map fun x => (⟨x.1, h x.1 x.2⟩ : Σ _ : K, W)).keys = l.keys := by
  induction l with
  | nil => rfl
  | cons x l ih => simp only [List.map_cons, List.keys_cons, ih]

theorem nodupKeys_map_val (h : K → V → W) {l : List (Σ _ : K, V)}
    (nd : l.NodupKeys) :
    (l.map fun x => (⟨x.1, h x.1 x.2⟩ : Σ _ : K, W)).NodupKeys := by
  unfold List.NodupKeys at *
  rw [keys_map_val]
  exact nd

/-- The key-united merge of two association lists: keys of `l₁` keep their
value, merged through `g` with `l₂`'s value when `l₂` also has the key, and
keys exclusive to `l₂` keep `l₂`'s value.  This is the list-level skeleton of
the dict comprehension in `update_mappings`. -/
def entryUnionWith (g : V → V → V) (l₁ l₂ : List (Σ _ : K, V)) :
    List (Σ _ : K, V) :=
  (l₁.map fun x =>
      (⟨x.1, (l₂.dlookup x.1).elim x.2 (fun v₂ => g x.2 v₂)⟩ : Σ _ : K, V))
    ++ l₂.filter fun x => !(decide (x.1 ∈ l₁.keys))

theorem keys_append (l₁ l₂ : List (Σ _ : K, V)) :
    (l₁ ++ l₂).keys = l₁.keys ++ l₂.keys := by
  simp [List.keys]

theorem nodupKeys_entryUnionWith (g : V → V → V) {l₁ l₂ : List (Σ _ : K, V)}
    (nd₁ : l₁.NodupKeys) (nd₂ : l₂.NodupKeys) :
    (entryUnionWith g l₁ l₂).NodupKeys := by
  unfold List.NodupKeys entryUnionWith
  rw [keys_append,
    keys_map_val (fun k v => (l₂.dlookup k).elim v (fun v₂ => g v v₂)) l₁]
  refine List.Nodup.append nd₁ ?_ ?_
  · exact List.Nodup.sublist (List.Sublist.map _ (List.filter_sublist l₂)) nd₂
  · intro a ha₁ ha₂
    rcases List.mem_map.1 ha₂ with ⟨x, hx, rfl⟩
    rcases List.mem_filter.1 hx with ⟨-, hpred⟩
    simp only [Bool.not_eq_eq_eq_not, Bool.not_true, decide_eq_false_iff_not] at hpred
    exact hpred ha₁

theorem dlookup_entryUnionWith (g : V → V → V) (a : K) {l₁ l₂ : List (Σ _ : K, V)}
    (nd₂ : l₂.NodupKeys) :
    (entryUnionWith g l₁ l₂).dlookup a
      = match l₁.dlookup a, l₂.dlookup a with
        | some v₁, some v₂ => some (g v₁ v₂)
        | some v₁, none => some v₁
        | none, o => o := by
  unfold entryUnionWith
  rw [dlookup_append_or,
    dlookup_map_val (fun k v => (l₂.dlookup k).elim v (fun v₂ => g v v₂)) a l₁]
  by_cases h₁ : a ∈ l₁.keys
  · rcases Option.isSome_iff_exists.1 (List.dlookup_isSome.2 h₁) with ⟨v₁, hv₁⟩
    rw [hv₁]
    cases h₂ : l₂.dlookup a <;> simp
  · have h₁n : l₁.dlookup a = none := List.dlookup_eq_none.2 h₁
    rw [h₁n, dlookup_filter_kv (fun k _ => !(decide (k ∈ l₁.keys))) a nd₂]
    cases h₂ : l₂.dlookup a with
    | none => simp
    | some v₂ => simp [h₁]

theorem perm_entryUnionWith (g : V → V → V) {l₁ l₃ l₂ l₄ : List (Σ _ : K, V)}
    (nd₂ : l₂.NodupKeys) (nd₄ : l₄.NodupKeys)
    (p₁ : l₁.Perm l₃) (p₂ : l₂.Perm l₄) :
    (entryUnionWith g l₁ l₂).Perm (entryUnionWith g l₃ l₄) := by
  unfold entryUnionWith
  refine List.Perm.append ?_ ?_
  · have hlook : ∀ b : K, l₂.dlookup b = l₄.dlookup b := fun b =>
      List.perm_dlookup b nd₂ nd₄ p₂
    have hfun :
        (fun x : Σ _ : K, V =>
            (⟨x.1, (l₂.dlookup x.1).elim x.2 (fun v₂ => g x.2 v₂)⟩ : Σ _ : K, V))
          = fun x : Σ _ : K, V =>
            (⟨x.1, (l₄.dlookup x.1).elim x.2 (fun v₂ => g x.2 v₂)⟩ : Σ _ : K, V) := by
      funext x
      rw [hlook x.1]
    rw [hfun]
    exact List.Perm.map _ p₁
  · have hkeys : l₁.keys.Perm l₃.keys := List.Perm.map _ p₁
    have hfun : (fun x : Σ _ : K, V => !(decide (x.1 ∈ l₁.keys)))
        = fun x : Σ _ : K, V => !(decide (x.1 ∈ l₃.keys)) := by
      funext x
      have hd : decide (x.1 ∈ l₁.keys) = decide (x.1 ∈ l₃.keys) :=
        decide_eq_decide.2 ⟨fun h => hkeys.mem_iff.1 h, fun h => hkeys.mem_iff.2 h⟩
      rw [hd]
    rw [hfun]
    exact List.Perm.filter _ p₂

end Lists

/-! ### Dict combinators

`Dict.vfilter` (keep entries whose key/value satisfy a predicate),
`Dict.vmap` (transform every value) and `Dict.unionWith` (key-united merge)
are the `Finmap` versions of the three dict-comprehension shapes used by the
source, obtained by lifting the list-level operations above.
-/

section DictOps

variable {K V W : Type} [DecidableEq K]

/-- Dict comprehension `{a: b for a, b in m.items() if p a b}`. -/
def Dict.vfilter (p : K → V → Bool) (s : Dict K V) : Dict K V :=
  Finmap.liftOn s
    (fun t => AList.toFinmap ⟨t.entries.filter fun x => p x.1 x.2,
      List.NodupKeys.sublist (List.filter_sublist _) t.nodupKeys⟩)
    (fun _ _ ht => AList.toFinmap_eq.2 (ht.filter _))

theorem Dict.lookup_vfilter (p : K → V → Bool) (s : Dict K V) (a : K) :
    Finmap.lookup a (Dict.vfilter p s)
      = (Finmap.lookup a s).bind (fun v => if p a v then some v else none) :=
  Finmap.induction_on s fun t => by
    simp only [Dict.vfilter, Finmap.liftOn_toFinmap, Finmap.lookup_toFinmap]
    exact dlookup_filter_kv p a t.nodupKeys

/-- Dict comprehension `{a: h a b for a, b in m.items()}`. -/
def Dict.vmap (h : K → V → W) (s : Dict K V) : Dict K W :=
  Finmap.liftOn s
    (fun t => AList.toFinmap ⟨t.entries.map fun x => ⟨x.1, h x.1 x.2⟩,
      nodupKeys_map_val h t.nodupKeys⟩)
    (fun _ _ ht => AList.toFinmap_eq.2
      (List.Perm.map (fun x => (⟨x.1, h x.1 x.2⟩ : Σ _ : K, W)) ht))

theorem Dict.lookup_vmap (h : K → V → W) (s : Dict K V) (a : K) :
    Finmap.lookup a (Dict.vmap h s) = (Finmap.lookup a s).map (h a) :=
  Finmap.induction_on s fun t => by
    simp only [Dict.vmap, Finmap.liftOn_toFinmap, Finmap.lookup_toFinmap]
    exact dlookup_map_val h a t.entries

theorem Dict.keys_vmap (h : K → V → W) (s : Dict K V) :
    (Dict.vmap h s).keys = s.keys := by
  ext a
  rw [Finmap.mem_keys, Finmap.mem_keys, ← Finmap.lookup_isSome, ← Finmap.lookup_isSome,
    Dict.lookup_vmap]
  cases Finmap.lookup a s <;> simp

/-- Key-united merge: every key of either input survives, and on key
collision the two values are merged with `g` (first argument from the first
map).  This is the shape of `{a: f(m1.get(a), m2.get(a)) for a in
m1.keys() | m2.keys()}`. -/
def Dict.unionWith (g : V → V → V) (s₁ s₂ : Dict K V) : Dict K V :=
  Finmap.liftOn₂ s₁ s₂
    (fun t₁ t₂ => AList.toFinmap ⟨entryUnionWith g t₁.entries t₂.entries,
      nodupKeys_entryUnionWith g t₁.nodupKeys t₂.nodupKeys⟩)
    (fun _ b₁ _ b₂ p₁ p₂ => AList.toFinmap_eq.2
      (perm_entryUnionWith g b₁.nodupKeys b₂.nodupKeys p₁ p₂))

theorem Dict.lookup_unionWith (g : V → V → V) (s₁ s₂ : Dict K V) (a : K) :
    Finmap.lookup a (Dict.unionWith g s₁ s₂)
      = match Finmap.lookup a s₁, Finmap.lookup a s₂ with
        | some v₁, some v₂ => some (g v₁ v₂)
        | some v₁, none => some v₁
        | none, o => o :=
  Finmap.induction_on₂ s₁ s₂ fun t₁ t₂ => by
    simp only [Dict.unionWith, Finmap.liftOn₂_toFinmap, Finmap.lookup_toFinmap]
    exact dlookup_entryUnionWith g a t₂.nodupKeys

theorem Dict.keys_unionWith (g : V → V → V) (s₁ s₂ : Dict K V) :
    (Dict.unionWith g s₁ s₂).keys = s₁.keys ∪ s₂.keys := by
  ext a
  rw [Finset.mem_union, Finmap.mem_keys, Finmap.mem_keys, Finmap.mem_keys,
    ← Finmap.lookup_isSome, ← Finmap.lookup_isSome, ← Finmap.lookup_isSome,
    Dict.lookup_unionWith]
  cases Finmap.lookup a s₁ <;> cases Finmap.lookup a s₂ <;> simp

/-- Dict comprehension `{k: v for k in s}` with a constant value: every key
of the finite set `s` is bound to `v`. -/
def Dict.const (s : Finset K) (v : V) : Dict K V :=
  ⟨s.val.map fun k => ⟨k, v⟩, by
    rw [← Multiset.nodup_keys]
    have hkeys : (Multiset.keys (s.val.map fun k => (⟨k, v⟩ : Σ _ : K, V))) = s.val := by
      rw [Multiset.keys, Multiset.map_map]
      exact Multiset.map_id s.val
    rw [hkeys]
    exact s.nodup⟩

theorem dlookup_map_const (v : V) (a : K) (l : List K) :
    (l.map fun k => (⟨k, v⟩ : Σ _ : K, V)).dlookup a = if a ∈ l then some v else none := by
  induction l with
  | nil => simp
  | cons b l ih =>
    by_cases hb : b = a
    · subst hb
      simp [List.dlookup_cons_eq]
    · rw [List.map_cons, List.dlookup_cons_ne _ (⟨b, v⟩ : Σ _ : K, V) (Ne.symm hb), ih]
      simp [hb, Ne.symm hb]

theorem Dict.lookup_const (s : Finset K) (v : V) (a : K) :
    Finmap.lookup a (Dict.const s v) = if a ∈ s then some v else none := by
  rcases s with ⟨m, hm⟩
  induction m using Quot.ind with
  | _ l =>
    have hrepr : Dict.const ⟨Quot.mk _ l, hm⟩ v
        = AList.toFinmap ⟨l.map fun k => ⟨k, v⟩, (Dict.const ⟨Quot.mk _ l, hm⟩ v).nodupKeys⟩ :=
      rfl
    rw [hrepr, Finmap.lookup_toFinmap]
    have hiff : a ∈ l ↔ a ∈ (⟨Quot.mk _ l, hm⟩ : Finset K) := Iff.rfl
    exact (dlookup_map_const v a l).trans (if_congr hiff rfl rfl)

end DictOps

/-! ### The program: `strava_gear/data.py` -/

/-- Python truthiness of a `ComponentId` (a `str`): falsy exactly when empty. -/
def truthyId (d : ComponentId) : Bool :=
  decide (d ≠ "")

/-- Source `prune_mapping(m)`:
`{a: b for a, b in ((a, {c: d for c, d in b.items() if d}) for a, b in m.items()) if b}` —
drop falsy component ids from every inner map, then drop outer keys whose
inner map became empty (a nonempty dict is truthy). -/
def prune_mapping {K : Type} [DecidableEq K] (m : Mapping K) : Mapping K :=
  Dict.vfilter (fun _ b => decide (b ≠ ∅))
    (Dict.vmap (fun _ b => Dict.vfilter (fun _ d => truthyId d) b) m)

/-- Source `update_mappings(m1, m2)`:
`{a: {**m1.get(a, {}), **m2.get(a, {})} for a in m1.keys() | m2.keys()}` —
key-united merge where, on collision, the inner dicts are merged with `m2`'s
entries overriding `m1`'s (`Finmap.union` is left-biased, so `m2`'s inner map
goes first). -/
def update_mappings {K : Type} [DecidableEq K] (m₁ m₂ : Mapping K) : Mapping K :=
  Dict.unionWith (fun b₁ b₂ => b₂ ∪ b₁) m₁ m₂

/-- Source `filter_mapping(m, f)`:
`{a: {c: d for c, d in b.items() if d not in f} for a, b in m.items()}`. -/
def filter_mapping {K : Type} [DecidableEq K] (m : Mapping K) (f : Finset ComponentId) :
    Mapping K :=
  Dict.vmap (fun _ b => Dict.vfilter (fun _ d => decide (d ∉ f)) b) m

/-- Source `{c for m in other.bikes.values() for c in m.values()}`: the set of
every component id mentioned anywhere in a mapping. -/
def mapping_component_ids {K : Type} (m : Mapping K) : Finset ComponentId :=
  (m.entries.bind fun x => x.2.entries.map Sigma.snd).toFinset

/-- Source dataclass `Rule`.  `pd.Timestamp` is only compared, so `since`
is an `Int`. -/
structure Rule where
  bikes : Mapping BikeId := ∅
  hashtags : Mapping HashTag := ∅
  since : Int := 0
deriving DecidableEq

/-- Source `Rule.__add__`.  Returning `NotImplemented` when
`other.since < self.since` makes the Python expression `a + b` raise (the
spec's OrderingError); here that is `none`.  Otherwise the combined rule is
`replace(other, bikes=..., hashtags=...)`. -/
def Rule.combine (self other : Rule) : Option Rule :=
  if other.since < self.since then
    none
  else
    let other_components := mapping_component_ids other.bikes
    some { other with
      bikes := prune_mapping
        (update_mappings (filter_mapping self.bikes other_components) other.bikes)
      hashtags := prune_mapping (update_mappings self.hashtags other.hashtags) }

/-- Source dataclass `Component` (distances in meters, times in seconds, as
exact rationals). -/
structure Component where
  ident : ComponentId
  name : ComponentName
  distance : ℚ := 0
  time : ℚ := 0
deriving DecidableEq

/-- Source dataclass `Usage`. -/
structure Usage where
  distances : Dict ComponentId ℚ := ∅
  times : Dict ComponentId ℚ := ∅
deriving DecidableEq

/-- Source `Component.add_usage`:
`replace(self, distance=self.distance + usage.distances.get(self.ident, 0),
time=self.time + usage.times.get(self.ident, 0))`. -/
def Component.add_usage (self : Component) (usage : Usage) : Component :=
  { self with
    distance := self.distance + ((usage.distances.lookup self.ident).getD 0)
    time := self.time + ((usage.times.lookup self.ident).getD 0) }

/-- Source `Usage.from_activity(components, distance, time)`:
`Usage(distances={c: distance for c in components}, times={c: time for c in components})`. -/
def Usage.from_activity (components : Finset ComponentId) (distance time : ℚ) : Usage :=
  { distances := Dict.const components distance
    times := Dict.const components time }

/-- One step of the `__iadd__` loop body:
`self.distances[k] = self.distances.get(k, 0) + v`. -/
def upsertAdd (acc : Dict ComponentId ℚ) (x : Σ _ : ComponentId, ℚ) :
    Dict ComponentId ℚ :=
  acc.insert x.1 (((acc.lookup x.1).getD 0) + x.2)

theorem upsertAdd_comm (d : Dict ComponentId ℚ) (x y : Σ _ : ComponentId, ℚ) :
    upsertAdd (upsertAdd d x) y = upsertAdd (upsertAdd d y) x := by
  rcases x with ⟨a, v⟩
  rcases y with ⟨b, w⟩
  by_cases hab : a = b
  · subst hab
    simp only [upsertAdd, Finmap.lookup_insert, Option.getD_some, Finmap.insert_insert]
    rw [add_right_comm]
  · simp only [upsertAdd]
    rw [Finmap.lookup_insert_of_ne _ (Ne.symm hab), Finmap.lookup_insert_of_ne _ hab,
      Finmap.insert_insert_of_ne _ hab]

/-- Source `Usage.__iadd__` applied to one `distances`/`times` dict: the
`for k, v in other.items()` loop, folded over the entries of `other`. -/
def addDict (m₁ m₂ : Dict ComponentId ℚ) : Dict ComponentId ℚ :=
  Finmap.liftOn m₂ (fun t => t.entries.foldl upsertAdd m₁)
    (fun _ _ p => p.foldl_eq' (fun x _ y _ z => upsertAdd_comm z x y) m₁)

/-- Source `Usage.__iadd__` (with the mutation of `self` made functional). -/
def Usage.iadd (self other : Usage) : Usage :=
  { distances := addDict self.distances other.distances
    times := addDict self.times other.times }

/-- Source `Usage.__add__`: copies `self`'s dicts and then delegates to
`__iadd__`; with value semantics the copy is the identity. -/
def Usage.add (self other : Usage) : Usage :=
  Usage.iadd { distances := self.distances, times := self.times } other

theorem lookup_foldl_upsertAdd (k : ComponentId) (l : List (Σ _ : ComponentId, ℚ))
    (nd : l.NodupKeys) (init : Dict ComponentId ℚ) :
    Finmap.lookup k (l.foldl upsertAdd init)
      = match l.dlookup k with
        | some v => some ((Finmap.lookup k init).getD 0 + v)
        | none => Finmap.lookup k init := by
  induction l generalizing init with
  | nil => simp
  | cons x l ih =>
    rcases x with ⟨a, v⟩
    have ndl : l.NodupKeys := List.nodupKeys_of_nodupKeys_cons nd
    rw [List.foldl_cons, ih ndl]
    by_cases hk : a = k
    · subst hk
      have hnone : l.dlookup a = none :=
        List.dlookup_eq_none.2 (List.not_mem_keys_of_nodupKeys_cons nd)
      rw [hnone, List.dlookup_cons_eq]
      show Finmap.lookup a (upsertAdd init ⟨a, v⟩) = _
      simp only [upsertAdd]
      exact Finmap.lookup_insert init
    · rw [List.dlookup_cons_ne _ (⟨a, v⟩ : Σ _ : ComponentId, ℚ) (Ne.symm hk)]
      have hinit : Finmap.lookup k (upsertAdd init ⟨a, v⟩) = Finmap.lookup k init := by
        simp only [upsertAdd]
        exact Finmap.lookup_insert_of_ne init (Ne.symm hk)
      rw [hinit]

theorem lookup_addDict (m₁ m₂ : Dict ComponentId ℚ) (k : ComponentId) :
    Finmap.lookup k (addDict m₁ m₂)
      = match Finmap.lookup k m₂ with
        | some v => some ((Finmap.lookup k m₁).getD 0 + v)
        | none => Finmap.lookup k m₁ :=
  Finmap.induction_on m₂ fun t => by
    simp only [addDict, Finmap.liftOn_toFinmap, Finmap.lookup_toFinmap]
    exact lookup_foldl_upsertAdd k t.entries t.nodupKeys m₁

theorem getD_lookup_addDict (m₁ m₂ : Dict ComponentId ℚ) (k : ComponentId) :
    (Finmap.lookup k (addDict m₁ m₂)).getD 0
      = (Finmap.lookup k m₁).getD 0 + (Finmap.lookup k m₂).getD 0 := by
  rw [lookup_addDict]
  cases Finmap.lookup k m₂ <;> simp

/-- Source dataclass `Rules`: the authored configuration container. -/
structure Rules where
  bike_names : Dict BikeId BikeName
  components : List Component
  rules : List Rule

/-! ### Derived notions used by the claims -/

/-- Two-level lookup `m[k][t]` with `None` for a missing key at either
level. -/
def lookup2 {K : Type} [DecidableEq K] (m : Mapping K) (k : K) (t : ComponentType) :
    Option ComponentId :=
  (Finmap.lookup k m).bind fun b => Finmap.lookup t b

/-- A mapping is pruned when no key holds an empty inner map and every inner
component id is truthy. -/
def PrunedMapping {K : Type} [DecidableEq K] (m : Mapping K) : Prop :=
  ∀ k, Finmap.lookup k m ≠ some (∅ : ComponentMap)
    ∧ ∀ b t d, Finmap.lookup k m = some b → Finmap.lookup t b = some d →
        truthyId d = true

/-- Left-biased union of finite maps, described through `Option.or`. -/
theorem lookup_union_or {K V : Type} [DecidableEq K] (s₁ s₂ : Dict K V) (a : K) :
    Finmap.lookup a (s₁ ∪ s₂) = (Finmap.lookup a s₁).or (Finmap.lookup a s₂) := by
  by_cases h : a ∈ s₁
  · rw [Finmap.lookup_union_left h]
    rcases Option.isSome_iff_exists.1 (Finmap.lookup_isSome.2 h) with ⟨v, hv⟩
    rw [hv]
    rfl
  · rw [Finmap.lookup_union_right h, Finmap.lookup_eq_none.2 h, Option.none_or]

/-- The output of `prune_mapping` is pruned. -/
theorem pruned_prune_mapping {K : Type} [DecidableEq K] (m : Mapping K) :
    PrunedMapping (prune_mapping m) := by
  intro k
  have hchar : Finmap.lookup k (prune_mapping m)
      = ((Finmap.lookup k m).map
          (fun b => Dict.vfilter (fun _ d => truthyId d) b)).bind
        (fun b => if decide (b ≠ ∅) then some b else none) := by
    rw [prune_mapping, Dict.lookup_vfilter, Dict.lookup_vmap]
  constructor
  · intro hsome
    rw [hchar] at hsome
    cases hb₀ : Finmap.lookup k m with
    | none => rw [hb₀] at hsome; exact Option.noConfusion hsome
    | some b₀ =>
      rw [hb₀] at hsome
      simp only [Option.map_some', Option.some_bind] at hsome
      by_cases hne : Dict.vfilter (fun _ d => truthyId d) b₀ ≠ ∅
      · rw [if_pos (decide_eq_true hne)] at hsome
        exact hne (Option.some_injective _ hsome)
      · rw [if_neg (by simpa using hne)] at hsome
        exact Option.noConfusion hsome
  · intro b t d hb htd
    rw [hchar] at hb
    cases hb₀ : Finmap.lookup k m with
    | none => rw [hb₀] at hb; exact Option.noConfusion hb
    | some b₀ =>
      rw [hb₀] at hb
      simp only [Option.map_some', Option.some_bind] at hb
      by_cases hne : Dict.vfilter (fun _ d => truthyId d) b₀ ≠ ∅
      · rw [if_pos (decide_eq_true hne)] at hb
        have hbeq : Dict.vfilter (fun _ d => truthyId d) b₀ = b :=
          Option.some_injective _ hb
        rw [← hbeq, Dict.lookup_vfilter] at htd
        cases hd₀ : Finmap.lookup t b₀ with
        | none => rw [hd₀] at htd; exact Option.noConfusion htd
        | some d₀ =>
          rw [hd₀] at htd
          simp only [Option.some_bind] at htd
          by_cases htr : truthyId d₀
          · rw [if_pos htr] at htd
            cases Option.some_injective _ htd
            exact htr
          · rw [if_neg htr] at htd
            exact absurd htd (Option.noConfusion)
      · rw [if_neg (by simpa using hne)] at hb
        exact absurd hb (Option.noConfusion)

/-! ### Claims -/

/-- C2: `combine(a, b)` fails with the ordering error (here: returns `none`)
exactly when `b.since < a.since`, and returns a combined rule exactly when
`a.since ≤ b.since`. -/
theorem claim_combine_ordering (a b : Rule) :
    (Rule.combine a b = none ↔ b.since < a.since)
      ∧ ((∃ r, Rule.combine a b = some r) ↔ a.since ≤ b.since) := by
  by_cases h : b.since < a.since
  · constructor
    · simp [Rule.combine, h]
    · simp [Rule.combine, h, not_le.2 h]
  · constructor
    · simp [Rule.combine, h]
    · simp [Rule.combine, h, not_lt.1 h]

/-- C9: `Component.add_usage` preserves identity and name, grows distance and
time by the usage's entries for the component's id (missing entries counting
as zero), and absorbing the empty usage is the identity.  The operation is
pure by construction in this embedding. -/
theorem claim_add_usage (c : Component) (u : Usage) :
    (c.add_usage u).ident = c.ident
    ∧ (c.add_usage u).name = c.name
    ∧ (c.add_usage u).distance = c.distance + (Finmap.lookup c.ident u.distances).getD 0
    ∧ (c.add_usage u).time = c.time + (Finmap.lookup c.ident u.times).getD 0
    ∧ c.add_usage ⟨∅, ∅⟩ = c := by
  refine ⟨rfl, rfl, rfl, rfl, ?_⟩
  cases c with
  | mk i n d t => simp [Component.add_usage]

/-- C7: `Usage.from_activity(componentIds, d, t)` gives every listed
component the full distance `d` and full time `t`, and no entry to any other
id. -/
theorem claim_from_activity (s : Finset ComponentId) (d t : ℚ) (c : ComponentId) :
    Finmap.lookup c (Usage.from_activity s d t).distances
        = (if c ∈ s then some d else none)
    ∧ Finmap.lookup c (Usage.from_activity s d t).times
        = (if c ∈ s then some t else none) :=
  ⟨Dict.lookup_const s d c, Dict.lookup_const s t c⟩

/-- C5: `update_mappings(m1, m2)` has exactly the key set
`keys(m1) ∪ keys(m2)`, and for every key and component type the entry is
`m2`'s when present, else `m1`'s.  Both inputs are left untouched by
construction in this embedding. -/
theorem claim_update_mappings {K : Type} [DecidableEq K] (m₁ m₂ : Mapping K) :
    ((update_mappings m₁ m₂).keys = m₁.keys ∪ m₂.keys)
    ∧ ∀ k t, lookup2 (update_mappings m₁ m₂) k t
        = (lookup2 m₂ k t).or (lookup2 m₁ k t) := by
  refine ⟨Dict.keys_unionWith _ m₁ m₂, ?_⟩
  intro k t
  rw [lookup2, update_mappings, Dict.lookup_unionWith]
  rcases h₁ : Finmap.lookup k m₁ with _ | b₁ <;>
    rcases h₂ : Finmap.lookup k m₂ with _ | b₂
  · simp [lookup2, h₁, h₂]
  · simp [lookup2, h₁, h₂]
  · simp [lookup2, h₁, h₂]
  · simp [lookup2, h₁, h₂, lookup_union_or]

/-- C4: `prune_mapping` never returns a key with an empty inner map, and
every surviving inner entry has a truthy component id. -/
theorem claim_prune_mapping {K : Type} [DecidableEq K] (m : Mapping K) (k : K) :
    Finmap.lookup k (prune_mapping m) ≠ some (∅ : ComponentMap)
    ∧ ∀ b t d, Finmap.lookup k (prune_mapping m) = some b →
        Finmap.lookup t b = some d → truthyId d = true :=
  pruned_prune_mapping m k

/-- Witness for C4 at a mapping holding a falsy marker and an empty inner
map candidate. -/
theorem claim_prune_mapping_witness :
    Finmap.lookup "bike1"
        (prune_mapping (K := BikeId)
          (Finmap.singleton "bike1" (Finmap.singleton "wheel" "")))
        ≠ some (∅ : ComponentMap)
    ∧ ∀ b t d, Finmap.lookup "bike1"
        (prune_mapping (K := BikeId)
          (Finmap.singleton "bike1" (Finmap.singleton "wheel" ""))) = some b →
        Finmap.lookup t b = some d → truthyId d = true :=
  claim_prune_mapping (Finmap.singleton "bike1" (Finmap.singleton "wheel" "")) "bike1"

/-- C1: reassignment.  If `a` mounts `compA`'s wheel slot on `bike1` and `b`
(not earlier) mounts it on `bike2`, the combined rule's bikes mapping is
exactly `{bike2: {wheel: compA}}`: the old assignment is stripped and the
emptied `bike1` is pruned away. -/
theorem claim_combine_reassignment (a b : Rule)
    (ha : a.bikes = Finmap.singleton "bike1" (Finmap.singleton "wheel" "compA"))
    (hb : b.bikes = Finmap.singleton "bike2" (Finmap.singleton "wheel" "compA"))
    (hs : a.since ≤ b.since) :
    ∃ r, Rule.combine a b = some r
      ∧ r.bikes = Finmap.singleton "bike2" (Finmap.singleton "wheel" "compA") := by
  refine ⟨{ b with
      bikes := prune_mapping (update_mappings
        (filter_mapping a.bikes (mapping_component_ids b.bikes)) b.bikes)
      hashtags := prune_mapping (update_mappings a.hashtags b.hashtags) }, ?_, ?_⟩
  · unfold Rule.combine
    rw [if_neg (not_lt.2 hs)]
  · show prune_mapping (update_mappings
        (filter_mapping a.bikes (mapping_component_ids b.bikes)) b.bikes) = _
    rw [ha, hb]
    decide

/-- Witness for C1 at concrete rules with equal timestamps. -/
theorem claim_combine_reassignment_witness :
    ∃ r, Rule.combine
        ⟨Finmap.singleton "bike1" (Finmap.singleton "wheel" "compA"), ∅, 0⟩
        ⟨Finmap.singleton "bike2" (Finmap.singleton "wheel" "compA"), ∅, 0⟩ = some r
      ∧ r.bikes = Finmap.singleton "bike2" (Finmap.singleton "wheel" "compA") :=
  claim_combine_reassignment _ _ rfl rfl (by decide)

/-- C3: hashtags are not exclusive.  The same scenario on hashtags keeps the
component under both tags: the combined rule's hashtags mapping holds both
entries. -/
theorem claim_combine_hashtags (a b : Rule)
    (ha : a.hashtags = Finmap.singleton "tag1" (Finmap.singleton "wheel" "compA"))
    (hb : b.hashtags = Finmap.singleton "tag2" (Finmap.singleton "wheel" "compA"))
    (_hab : a.bikes = ∅) (_hbb : b.bikes = ∅)
    (hs : a.since ≤ b.since) :
    ∃ r, Rule.combine a b = some r
      ∧ r.hashtags
          = Finmap.singleton "tag1" (Finmap.singleton "wheel" "compA")
            ∪ Finmap.singleton "tag2" (Finmap.singleton "wheel" "compA")
      ∧ Finmap.lookup "tag1" r.hashtags = some (Finmap.singleton "wheel" "compA")
      ∧ Finmap.lookup "tag2" r.hashtags = some (Finmap.singleton "wheel" "compA") := by
  refine ⟨{ b with
      bikes := prune_mapping (update_mappings
        (filter_mapping a.bikes (mapping_component_ids b.bikes)) b.bikes)
      hashtags := prune_mapping (update_mappings a.hashtags b.hashtags) }, ?_, ?_, ?_, ?_⟩
  · unfold Rule.combine
    rw [if_neg (not_lt.2 hs)]
  · show prune_mapping (update_mappings a.hashtags b.hashtags) = _
    rw [ha, hb]
    decide
  · show Finmap.lookup "tag1" (prune_mapping (update_mappings a.hashtags b.hashtags)) = _
    rw [ha, hb]
    decide
  · show Finmap.lookup "tag2" (prune_mapping (update_mappings a.hashtags b.hashtags)) = _
    rw [ha, hb]
    decide

/-- Witness for C3 at concrete rules with equal timestamps. -/
theorem claim_combine_hashtags_witness :
    ∃ r, Rule.combine
        ⟨∅, Finmap.singleton "tag1" (Finmap.singleton "wheel" "compA"), 0⟩
        ⟨∅, Finmap.singleton "tag2" (Finmap.singleton "wheel" "compA"), 0⟩ = some r
      ∧ r.hashtags
          = Finmap.singleton "tag1" (Finmap.singleton "wheel" "compA")
            ∪ Finmap.singleton "tag2" (Finmap.singleton "wheel" "compA")
      ∧ Finmap.lookup "tag1" r.hashtags = some (Finmap.singleton "wheel" "compA")
      ∧ Finmap.lookup "tag2" r.hashtags = some (Finmap.singleton "wheel" "compA") :=
  claim_combine_hashtags _ _ rfl rfl rfl rfl (by decide)


/-- C6 counterexample: with `excluded = {""}` (which happens in the program
whenever rule `b` carries a falsy removal marker, since `filter_mapping` is
called with the set of all of `b.bikes`' values), a falsy inner entry of `m`
is removed by `filter_mapping`, contradicting the unconditional claim that
falsy entries are left untouched. -/
theorem claim_filter_mapping_cex :
    lookup2 (filter_mapping (K := BikeId)
        (Finmap.singleton "bike1" (Finmap.singleton "wheel" ""))
        ({""} : Finset ComponentId)) "bike1" "wheel" = none
    ∧ lookup2 (K := BikeId)
        (Finmap.singleton "bike1" (Finmap.singleton "wheel" ""))
        "bike1" "wheel" = some ""
    ∧ truthyId "" = false := by decide

/-- C6 (amended): `filter_mapping(m, excluded)` keeps exactly the outer key
set of `m`, every surviving inner entry's value is not in `excluded`, and
every inner entry whose value is not in `excluded` — falsy or not — is left
untouched (falsy entries are only removed when `excluded` contains the falsy
id itself). -/
theorem claim_filter_mapping {K : Type} [DecidableEq K]
    (m : Mapping K) (f : Finset ComponentId) :
    ((filter_mapping m f).keys = m.keys)
    ∧ (∀ k t d, lookup2 (filter_mapping m f) k t = some d → d ∉ f)
    ∧ (∀ k t d, lookup2 m k t = some d → d ∉ f →
        lookup2 (filter_mapping m f) k t = some d) := by
  refine ⟨Dict.keys_vmap _ m, ?_, ?_⟩
  · intro k t d h
    rw [lookup2, filter_mapping, Dict.lookup_vmap] at h
    cases hb : Finmap.lookup k m with
    | none => rw [hb] at h; exact Option.noConfusion h
    | some b =>
      rw [hb] at h
      simp only [Option.map_some', Option.some_bind, Dict.lookup_vfilter] at h
      cases hd : Finmap.lookup t b with
      | none => rw [hd] at h; exact Option.noConfusion h
      | some d₀ =>
        rw [hd] at h
        simp only [Option.some_bind] at h
        by_cases hmem : d₀ ∉ f
        · rw [if_pos (decide_eq_true hmem)] at h
          cases Option.some_injective _ h
          exact hmem
        · rw [if_neg (by simpa using hmem)] at h
          exact Option.noConfusion h
  · intro k t d h hmem
    rw [lookup2] at h
    cases hb : Finmap.lookup k m with
    | none => rw [hb] at h; exact Option.noConfusion h
    | some b =>
      rw [hb] at h
      simp only [Option.some_bind] at h
      rw [lookup2, filter_mapping, Dict.lookup_vmap, hb]
      simp only [Option.map_some', Option.some_bind, Dict.lookup_vfilter, h]
      simp [hmem]

/-- Witness for C6 (amended) at a truthy surviving entry. -/
theorem claim_filter_mapping_witness :
    lookup2 (filter_mapping (K := BikeId)
        (Finmap.singleton "b1" (Finmap.singleton "w" "c"))
        ({"x"} : Finset ComponentId)) "b1" "w" = some "c" :=
  (claim_filter_mapping (Finmap.singleton "b1" (Finmap.singleton "w" "c"))
      ({"x"} : Finset ComponentId)).2.2 "b1" "w" "c" (by decide) (by decide)

/-- Folding a list of usage deltas into a running total with `__iadd__`,
starting from the empty `Usage()`. -/
def accumulate (l : List Usage) : Usage :=
  l.foldl Usage.iadd ⟨∅, ∅⟩

theorem accumulate_foldl_aux (l : List Usage) (c : ComponentId) :
    ∀ init : Usage,
      ((Finmap.lookup c (l.foldl Usage.iadd init).distances).getD 0
          = (Finmap.lookup c init.distances).getD 0
            + (l.map fun u => (Finmap.lookup c u.distances).getD 0).sum)
      ∧ ((Finmap.lookup c (l.foldl Usage.iadd init).times).getD 0
          = (Finmap.lookup c init.times).getD 0
            + (l.map fun u => (Finmap.lookup c u.times).getD 0).sum) := by
  induction l with
  | nil => intro init; simp
  | cons u l ih =>
    intro init
    rcases ih (Usage.iadd init u) with ⟨ihd, iht⟩
    rw [List.foldl_cons]
    constructor
    · rw [ihd]
      show (Finmap.lookup c (addDict init.distances u.distances)).getD 0 + _ = _
      rw [getD_lookup_addDict, List.map_cons, List.sum_cons, add_assoc]
    · rw [iht]
      show (Finmap.lookup c (addDict init.times u.times)).getD 0 + _ = _
      rw [getD_lookup_addDict, List.map_cons, List.sum_cons, add_assoc]

/-- C8: accumulation is order-insensitive per key.  The total for every
component id equals the sum of that id's contributions over the list (absent
keys counting as zero), hence any two permutations of the delta list give
identical per-id distance and time totals; and the pure `__add__` is the
same operation as the in-place `__iadd__`. -/
theorem claim_usage_accumulation (l l' : List Usage) (h : l.Perm l') (c : ComponentId) :
    ((Finmap.lookup c (accumulate l).distances).getD 0
        = (l.map fun u => (Finmap.lookup c u.distances).getD 0).sum)
    ∧ ((Finmap.lookup c (accumulate l).times).getD 0
        = (l.map fun u => (Finmap.lookup c u.times).getD 0).sum)
    ∧ ((Finmap.lookup c (accumulate l).distances).getD 0
        = (Finmap.lookup c (accumulate l').distances).getD 0)
    ∧ ((Finmap.lookup c (accumulate l).times).getD 0
        = (Finmap.lookup c (accumulate l').times).getD 0)
    ∧ Usage.add = Usage.iadd := by
  have base : ∀ m : List Usage,
      ((Finmap.lookup c (accumulate m).distances).getD 0
          = (m.map fun u => (Finmap.lookup c u.distances).getD 0).sum)
      ∧ ((Finmap.lookup c (accumulate m).times).getD 0
          = (m.map fun u => (Finmap.lookup c u.times).getD 0).sum) := by
    intro m
    rcases accumulate_foldl_aux m c ⟨∅, ∅⟩ with ⟨hd, ht⟩
    rw [accumulate, hd, ht]
    simp
  rcases base l with ⟨hld, hlt⟩
  rcases base l' with ⟨hl₂d, hl₂t⟩
  refine ⟨hld, hlt, ?_, ?_, rfl⟩
  · rw [hld, hl₂d]
    exact List.Perm.sum_eq (h.map _)
  · rw [hlt, hl₂t]
    exact List.Perm.sum_eq (h.map _)

/-- Witness for C8 on a two-element list and its transposition. -/
theorem claim_usage_accumulation_witness :
    ((Finmap.lookup "c1" (accumulate
          [⟨Finmap.singleton "c1" 10, Finmap.singleton "c1" 1⟩,
           ⟨Finmap.singleton "c1" 5, Finmap.singleton "c2" 2⟩]).distances).getD 0
        = ([⟨Finmap.singleton "c1" 10, Finmap.singleton "c1" 1⟩,
            ⟨Finmap.singleton "c1" 5, Finmap.singleton "c2" 2⟩].map
            fun u : Usage => (Finmap.lookup "c1" u.distances).getD 0).sum)
    ∧ ((Finmap.lookup "c1" (accumulate
          [⟨Finmap.singleton "c1" 10, Finmap.singleton "c1" 1⟩,
           ⟨Finmap.singleton "c1" 5, Finmap.singleton "c2" 2⟩]).times).getD 0
        = ([⟨Finmap.singleton "c1" 10, Finmap.singleton "c1" 1⟩,
            ⟨Finmap.singleton "c1" 5, Finmap.singleton "c2" 2⟩].map
            fun u : Usage => (Finmap.lookup "c1" u.times).getD 0).sum)
    ∧ ((Finmap.lookup "c1" (accumulate
          [⟨Finmap.singleton "c1" 10, Finmap.singleton "c1" 1⟩,
           ⟨Finmap.singleton "c1" 5, Finmap.singleton "c2" 2⟩]).distances).getD 0
        = (Finmap.lookup "c1" (accumulate
          [⟨Finmap.singleton "c1" 5, Finmap.singleton "c2" 2⟩,
           ⟨Finmap.singleton "c1" 10, Finmap.singleton "c1" 1⟩]).distances).getD 0)
    ∧ ((Finmap.lookup "c1" (accumulate
          [⟨Finmap.singleton "c1" 10, Finmap.singleton "c1" 1⟩,
           ⟨Finmap.singleton "c1" 5, Finmap.singleton "c2" 2⟩]).times).getD 0
        = (Finmap.lookup "c1" (accumulate
          [⟨Finmap.singleton "c1" 5, Finmap.singleton "c2" 2⟩,
           ⟨Finmap.singleton "c1" 10, Finmap.singleton "c1" 1⟩]).times).getD 0)
    ∧ Usage.add = Usage.iadd :=
  claim_usage_accumulation
    [⟨Finmap.singleton "c1" 10, Finmap.singleton "c1" 1⟩,
     ⟨Finmap.singleton "c1" 5, Finmap.singleton "c2" 2⟩]
    [⟨Finmap.singleton "c1" 5, Finmap.singleton "c2" 2⟩,
     ⟨Finmap.singleton "c1" 10, Finmap.singleton "c1" 1⟩]
    (List.Perm.swap _ _ _) "c1"

/-- C10: every rule produced by `combine` has pruned `bikes` and `hashtags`
mappings (no falsy component ids, no empty inner maps), whatever the inputs
held, so prunedness is invariant under any fold of combines. -/
theorem claim_combine_pruned (a b r : Rule) (h : Rule.combine a b = some r) :
    PrunedMapping r.bikes ∧ PrunedMapping r.hashtags := by
  unfold Rule.combine at h
  by_cases hc : b.since < a.since
  · rw [if_pos hc] at h
    exact Option.noConfusion h
  · rw [if_neg hc] at h
    obtain rfl : ({ b with
        bikes := prune_mapping (update_mappings
          (filter_mapping a.bikes (mapping_component_ids b.bikes)) b.bikes)
        hashtags := prune_mapping (update_mappings a.hashtags b.hashtags) } : Rule) = r :=
      Option.some_injective _ h
    exact ⟨pruned_prune_mapping _, pruned_prune_mapping _⟩

/-- Witness for C10 at input rules full of falsy markers. -/
theorem claim_combine_pruned_witness :
    PrunedMapping (Rule.mk ∅ ∅ 0).bikes ∧ PrunedMapping (Rule.mk ∅ ∅ 0).hashtags :=
  claim_combine_pruned
    ⟨Finmap.singleton "bike1" (Finmap.singleton "wheel" ""),
     Finmap.singleton "tag1" (Finmap.singleton "wheel" ""), 0⟩
    ⟨∅, ∅, 0⟩ ⟨∅, ∅, 0⟩ (by decide)

end StravaGear
